import Mathlib

/-!
Verification of the step-definition matching engine of a Gherkin
language-server (the `StepsHandler` class): Gherkin line recognition,
scenario-outline variable substitution, step-template compilation to
full and prefix-tolerant regular-expression sources, invariant
expansion of alternation templates, index population and the
validation / definition-lookup entry points.

The TypeScript sources are embedded shallowly: strings are Lean
`String`s, the handler's regular-expression values (produced by the
JavaScript `RegExp` constructor, which is external to the repository)
are either abstract matchers `String → Bool` stored in a `Step`, or,
where a concrete evaluation is needed, values of a small executable
JavaScript-regular-expression interpreter defined below.
-/

namespace VSCuke

/-- JavaScript's `\s` for the ASCII range: space, tab, line feed,
carriage return, vertical tab and form feed. -/
def isJsSpace (c : Char) : Bool :=
  c = ' ' || c = '\t' || c = '\n' || c = '\r' || c = '\x0b' || c = '\x0c'

/-- Lowercasing used by the case-insensitive keyword classification. -/
def lowerStr (s : String) : String := String.mk (s.data.map Char.toLower)

/-- `text.split(/\r?\n/g)`: split at each line feed, a carriage return
directly before the line feed belongs to the separator. -/
def splitLinesAux : List Char → List Char → List String
  | [], acc => [String.mk acc.reverse]
  | '\n' :: rest, acc =>
      let cur := acc.reverse
      let cur := if cur.getLast? = some '\r' then cur.dropLast else cur
      String.mk cur :: splitLinesAux rest []
  | c :: rest, acc => splitLinesAux rest (c :: acc)

def splitLinesJs (s : String) : List String := splitLinesAux s.data []

/-- `line.replace(/\s*$/, '')`: remove the trailing whitespace run. -/
def rtrimJs (s : String) : String :=
  String.mk ((s.data.reverse.dropWhile isJsSpace).reverse)

/-- `line.replace(/^\s*/, '')`: remove the leading whitespace run. -/
def ltrimJs (s : String) : String := String.mk (s.data.dropWhile isJsSpace)

/-- Replace the first occurrence of the literal `pat` (JavaScript
`String.prototype.replace` with a string pattern). A structural scan:
if no occurrence exists the string is unchanged. -/
def replaceFirstAux (pat rep : List Char) : List Char → List Char
  | [] => []
  | c :: rest =>
      if pat ≠ [] ∧ pat.isPrefixOf (c :: rest) then
        rep ++ (c :: rest).drop pat.length
      else
        c :: replaceFirstAux pat rep rest

def replaceFirstJs (s pat rep : String) : String :=
  String.mk (replaceFirstAux pat.data rep.data s.data)

/-- Replace every (non-overlapping, leftmost-first) occurrence of the
literal `pat`, as `String.prototype.split(pat).join(rep)` or a global
regular-expression replace whose pattern is literal text. Fuelled by
the input length; each replacement consumes at least one character. -/
def replaceAllAux (pat rep : List Char) : Nat → List Char → List Char
  | _, [] => []
  | 0, l => l
  | fuel + 1, c :: rest =>
      if pat ≠ [] ∧ pat.isPrefixOf (c :: rest) then
        rep ++ replaceAllAux pat rep fuel ((c :: rest).drop pat.length)
      else
        c :: replaceAllAux pat rep fuel rest

def replaceAllJs (s pat rep : String) : String :=
  String.mk (replaceAllAux pat.data rep.data s.data.length s.data)

/-- `Array.prototype.slice(1, -1)`: drop the first and the last element. -/
def dropFirstLast {α : Type} (l : List α) : List α := (l.drop 1).dropLast

/-! ## The Gherkin keyword classifier

The `gherkin` module is imported by `steps.handler.ts` but is not among
the repository files available here, so it is modelled from the spec. -/

/-- Modelled from the spec: the semantic step types of the Gherkin
classifier, `{Given, When, Then, And, But, Other}`. -/
inductive GherkinType where
  | Given
  | When
  | Then
  | And
  | But
  | Other
deriving DecidableEq, Repr

/-- Modelled from the spec: the canonical keyword set behind
`allGherkinWords`, in the alternation order of the line regex. -/
def gherkinKeywords : List String := ["Given", "When", "Then", "And", "But"]

/-- Modelled from the spec: `classify(keywordText)` is a
case-insensitive lookup against the canonical keyword set; anything
else maps to `Other` (`getGherkinType` of the missing module). -/
def getGherkinType (w : String) : GherkinType :=
  let l := lowerStr w
  if l = "given" then .Given
  else if l = "when" then .When
  else if l = "then" then .Then
  else if l = "and" then .And
  else if l = "but" then .But
  else .Other

/-- Modelled from the spec: `getGherkinTypeLower` classifies the
lowercased keyword; as the lookup is case-insensitive it agrees with
`getGherkinType`. -/
def getGherkinTypeLower (w : String) : GherkinType := getGherkinType (lowerStr w)

/-- The four capture groups of the Gherkin line regular expression
`^(\s*)(allGherkinWords)(\s+)(.*)`. -/
structure GherkinMatchR where
  g1 : String
  g2 : String
  g3 : String
  g4 : String
deriving DecidableEq, Repr

/-- `line.match(getGherkinRegEx())` for
`^(\s*)(Given|When|Then|And|But)(\s+)(.*)`: greedy leading whitespace,
a keyword of the alternation (first alternative wins), at least one
whitespace character, then the rest of the line.  The keyword can only
start where the leading whitespace run ends, so the match is unique. -/
def gherkinRegexMatch (line : String) : Option GherkinMatchR :=
  let cs := line.data
  let ws := cs.takeWhile isJsSpace
  let rest := cs.dropWhile isJsSpace
  match gherkinKeywords.find? (fun k => k.data.isPrefixOf rest) with
  | none => none
  | some k =>
      let after := rest.drop k.data.length
      let ws2 := after.takeWhile isJsSpace
      if ws2.isEmpty then none
      else some ⟨String.mk ws, k, String.mk ws2, String.mk (after.drop ws2.length)⟩

example : gherkinRegexMatch "  Given a user" =
    some ⟨"  ", "Given", " ", "a user"⟩ := by decide

example : gherkinRegexMatch "Butterfly is nice" = none := by decide

example : gherkinRegexMatch "Given" = none := by decide

/-! ## Scenario-outline variables -/

/-- One piece list of `split('|')`. -/
def splitCharAux (sep : Char) : List Char → List Char → List (List Char)
  | [], acc => [acc.reverse]
  | c :: rest, acc =>
      if c = sep then acc.reverse :: splitCharAux sep rest []
      else splitCharAux sep rest (c :: acc)

/-- `row.split(/\s*\|\s*/)`: the separator is a pipe together with the
whitespace directly around it, so each piece standing before a pipe
loses its trailing whitespace and each piece standing after a pipe
loses its leading whitespace; a row without pipes is returned whole. -/
def splitPipesJs (row : String) : List String :=
  let pieces := splitCharAux '|' row.data []
  let n := pieces.length
  (pieces.enum.map (fun p =>
    let trimLead := p.1 ≠ 0
    let trimTrail := p.1 + 1 ≠ n
    let l := if trimLead then p.2.dropWhile isJsSpace else p.2
    let l := if trimTrail then (l.reverse.dropWhile isJsSpace).reverse else l
    String.mk l))

example : splitPipesJs "| name | age |" = ["", "name", "age", ""] := by decide

/-- `a.match(/^\s*Examples:\s*$/)` as a Boolean. -/
def isExamplesHeader (a : String) : Bool :=
  ((a.data.dropWhile isJsSpace).reverse.dropWhile isJsSpace).reverse =
    "Examples:".data

/-- The last value inserted for a key wins, as assignment on a
JavaScript object does. -/
def ovLookup (vars : List (String × String)) (k : String) : Option String :=
  (vars.reverse.find? (fun p => p.1 = k)).map (·.2)

/-- `getOutlineVars(text)`: at every `Examples:` header line whose
second-next line exists and is truthy (non-empty), read the names from
the next line and the values from the one after, pipe-split with the
first and last cell dropped, and bind each name whose value cell is
present and non-empty. Later bindings overwrite earlier ones. -/
def getOutlineVars (text : String) : List (String × String) :=
  let arr := splitLinesJs text
  arr.enum.foldl (fun res p =>
    let i := p.1
    match arr.get? (i + 2) with
    | some third =>
        if isExamplesHeader p.2 ∧ third ≠ "" then
          let names := dropFirstLast (splitPipesJs (arr.getD (i + 1) ""))
          let values := dropFirstLast (splitPipesJs third)
          names.enum.foldl (fun res q =>
            match values.get? q.1 with
            | some v => if v ≠ "" then res ++ [(q.2, v)] else res
            | none => res) res
        else res
    | none => res) []

example :
    ovLookup (getOutlineVars "Examples:\n| name |\n| Bob |") "name" =
      some "Bob" := by decide

/-- `line.match(/<.*?>/g)`: every non-overlapping occurrence of an
angle-bracketed run, lazily closed at the first `>`. -/
def outlineMatchesAux : List Char → Option (List Char) → List String
  | [], _ => []
  | c :: rest, none =>
      if c = '<' then outlineMatchesAux rest (some ['<'])
      else outlineMatchesAux rest none
  | c :: rest, some buf =>
      if c = '>' then
        String.mk (('>' :: buf).reverse) :: outlineMatchesAux rest none
      else outlineMatchesAux rest (some (c :: buf))

def outlineMatchesJs (line : String) : List String :=
  outlineMatchesAux line.data none

/-- `s.replace(/<|>/g, '')`. -/
def removeAngles (s : String) : String :=
  String.mk (s.data.filter (fun c => c ≠ '<' ∧ c ≠ '>'))

example : outlineMatchesJs "Given <name> is <age>" = ["<name>", "<age>"] := by
  decide

/-! ## The data model -/

/-- A position, line and character, of the language-server protocol. -/
structure Pos where
  line : Nat
  character : Nat
deriving DecidableEq, Repr

/-- A range; the source's second field is named `end`, a Lean keyword,
so it is `endPos` here. -/
structure RangeR where
  start : Pos
  endPos : Pos
deriving DecidableEq, Repr

/-- A `Location` (the `Definition` stored on a step): uri and range. -/
structure Loc where
  uri : String
  range : RangeR
deriving DecidableEq, Repr

/-- A diagnostic; `DiagnosticSeverity.Warning` is the numeral 2. -/
structure Diagnostic where
  severity : Nat
  range : RangeR
  message : String
  source : String
deriving DecidableEq, Repr

/-- One indexed step.  The two compiled regular expressions of the
source are embedded as their `test` functions; the source's field
`def` is a Lean keyword, so it is `defn` here. -/
structure Step where
  id : String
  reg : String → Bool
  partialReg : String → Bool
  text : String
  desc : String
  defn : Loc
  count : Nat
  gherkin : GherkinType
  documentation : String

/-- The settings fields read on the code paths under verification. -/
structure Settings where
  strictGherkinValidation : Bool
  stepsInvariants : Bool
  pureTextSteps : Bool
deriving DecidableEq, Repr

/-- The handler state these entry points touch: the element list and
the settings (the counts table is carried for `getSteps`). -/
structure StepsHandler where
  elements : List Step
  settings : Settings
  elemenstCountHash : List (String × Nat)

/-- The predicate of `getStepByText`'s `find`: the gherkin type must
agree when one is supplied, and the step's full pattern must accept
the text. -/
def stepMatchPred (text : String) (gherkin : Option GherkinType) (s : Step) : Bool :=
  (match gherkin with
   | some g => s.gherkin = g
   | none => true) && s.reg text

/-- `getStepByText(text, gherkin?)`: the first element whose full
pattern accepts the text (and whose type agrees when one is given). -/
def getStepByText (h : StepsHandler) (text : String) (gherkin : Option GherkinType) :
    Option Step :=
  h.elements.find? (stepMatchPred text gherkin)

/-- The first `reduce` of `getGherkinMatch`: replace the first
occurrence of each `<key>` whose binding is truthy by the bare value. -/
def pureOutlineLine (vars : List (String × String)) (keys : List String)
    (line : String) : String :=
  keys.foldl (fun resLine key =>
    match ovLookup vars key with
    | some v =>
        if v ≠ "" then replaceFirstJs resLine ("<" ++ key ++ ">") v else resLine
    | none => resLine) line

/-- The second `reduce` of `getGherkinMatch`: the same substitution
with the value wrapped in double quotes. -/
def quotesOutlineLine (vars : List (String × String)) (keys : List String)
    (line : String) : String :=
  keys.foldl (fun resLine key =>
    match ovLookup vars key with
    | some v =>
        if v ≠ "" then
          replaceFirstJs resLine ("<" ++ key ++ ">") ("\"" ++ v ++ "\"")
        else resLine
    | none => resLine) line

/-- `getGherkinMatch(line, document)`: without angle-bracket
placeholders, the plain Gherkin line match; with them, build the bare
and the quote-wrapped substitution variants and prefer the quoted
variant's match when its step content is non-empty and matches an
indexed step, else return the bare variant's match. -/
def getGherkinMatch (h : StepsHandler) (line document : String) :
    Option GherkinMatchR :=
  let om := outlineMatchesJs line
  if om ≠ [] then
    let outlineVars := getOutlineVars document
    let keys := om.map removeAngles
    let pureLine := pureOutlineLine outlineVars keys line
    let quotesLine := quotesOutlineLine outlineVars keys line
    let pureMatch := gherkinRegexMatch pureLine
    let quotesMatch := gherkinRegexMatch quotesLine
    match quotesMatch with
    | some qm =>
        if qm.g4 ≠ "" ∧ (getStepByText h qm.g4 none).isSome then quotesMatch
        else pureMatch
    | none => pureMatch
  else gherkinRegexMatch line

/-- `getStrictGherkinType(gherkinPart, lineNumber, text)`: an And/But
keyword inherits the first Given/When/Then classification found while
folding the lines strictly before `lineNumber` from the last one
backwards (`reduceRight` with accumulator `Other`); any other keyword
classifies directly. -/
def getStrictGherkinType (h : StepsHandler) (gherkinPart : String)
    (lineNumber : Nat) (text : String) : GherkinType :=
  let gherkinType := getGherkinType gherkinPart
  if gherkinType = GherkinType.And ∨ gherkinType = GherkinType.But then
    (((splitLinesJs text).take lineNumber).reverse).foldl (fun res val =>
      if res = GherkinType.Other then
        match getGherkinMatch h val text with
        | some m =>
            let prevGherkinPartType := getGherkinTypeLower m.g2
            if prevGherkinPartType = GherkinType.Given ∨
                prevGherkinPartType = GherkinType.When ∨
                prevGherkinPartType = GherkinType.Then then
              prevGherkinPartType
            else res
        | none => res
      else res) GherkinType.Other
  else getGherkinTypeLower gherkinPart

/-- `validate(line, lineNum, text)` of the canonical implementation
(`src/gserver/src/steps.handler.ts`): strip trailing whitespace, match
the Gherkin line shape, look the step content up (against the strict
type when strict validation is on) and emit a warning diagnostic when
nothing is found. -/
def validate (h : StepsHandler) (line : String) (lineNum : Nat) (text : String) :
    Option Diagnostic :=
  let line := rtrimJs line
  let lineForError := ltrimJs line
  match getGherkinMatch h line text with
  | none => none
  | some m =>
      let beforeGherkin := m.g1
      let gherkinPart := m.g2
      let gherkinWord : Option GherkinType :=
        if h.settings.strictGherkinValidation then
          some (getStrictGherkinType h gherkinPart lineNum text)
        else none
      match getStepByText h m.g4 gherkinWord with
      | some _ => none
      | none =>
          some {
            severity := 2
            range := ⟨⟨lineNum, beforeGherkin.length⟩, ⟨lineNum, line.length⟩⟩
            message := "Was unable to find step for \"" ++ lineForError ++ "\""
            source := "cucumberautocomplete" }

/-- `validate` of the JSON-capable duplicate implementation
(`src/unnamed/part_001`): the same preamble, but an unconditional
`return null` stands before the found/not-found branch, so after a
successful Gherkin match the function always yields `null`; the
diagnostic branch below it is unreachable and is therefore absent from
this translation. -/
def validateJsonMode (h : StepsHandler) (line : String) (lineNum : Nat)
    (text : String) : Option Diagnostic :=
  let line := rtrimJs line
  let _lineForError := ltrimJs line
  match getGherkinMatch h line text with
  | none => none
  | some m =>
      let gherkinWord : Option GherkinType :=
        if h.settings.strictGherkinValidation then
          some (getStrictGherkinType h m.g2 lineNum text)
        else none
      let _step := getStepByText h m.g4 gherkinWord
      none

/-- `getDefinition(line, text)`: the definition location of the step
found for the line's content, when the line has Gherkin shape. -/
def getDefinition (h : StepsHandler) (line text : String) : Option Loc :=
  match getGherkinMatch h line text with
  | none => none
  | some m => (getStepByText h m.g4 none).map (·.defn)

/-! ## The expression compiler: template text to pattern text -/

/-- The run of characters up to the first `}`; `.` does not cross a
line feed, so a line feed before the `}` means no match. -/
def scanToCloseBrace : List Char → Option (List Char)
  | [] => none
  | c :: rest =>
      if c = '}' then some rest
      else if c = '\n' then none
      else scanToCloseBrace rest

/-- `step.replace(/#{(.*?)}/g, '.*')`: every Ruby interpolation marker
`#{...}`, lazily closed at the first `}`, becomes `.*`. -/
def rubyInterpAux : Nat → List Char → List Char
  | _, [] => []
  | 0, l => l
  | fuel + 1, c :: rest =>
      if c = '#' then
        match rest with
        | '{' :: rest2 =>
            match scanToCloseBrace rest2 with
            | some post => '.' :: '*' :: rubyInterpAux fuel post
            | none => c :: rubyInterpAux fuel rest
        | _ => c :: rubyInterpAux fuel rest
      else c :: rubyInterpAux fuel rest

def rubyInterpJs (s : String) : String :=
  String.mk (rubyInterpAux s.data.length s.data)

/-- The `specialParameters` table applied in order: the Ruby
interpolation marker, then the literal replacements for `{float}`,
`{int}`, `{stringInDoubleQuotes}`, `{word}` and `{string}`. -/
def applySpecialParameters (step : String) : String :=
  let step := rubyInterpJs step
  let step := replaceAllJs step "{float}" "-?\\d*\\.?\\d+"
  let step := replaceAllJs step "{int}" "-?\\d+"
  let step := replaceAllJs step "{stringInDoubleQuotes}" "\"[^\"]+\""
  let step := replaceAllJs step "{word}" "[^\\s]+"
  let step := replaceAllJs step "{string}" "(\"|')[^\\1]*\\1"
  step

def isLowerAlpha (c : Char) : Bool := 'a' ≤ c ∧ c ≤ 'z'

def isAlphaJs (c : Char) : Bool := ('a' ≤ c ∧ c ≤ 'z') ∨ ('A' ≤ c ∧ c ≤ 'Z')

/-- `step.replace(/\(([a-z]+)\)/g, '($1)?')`: a parenthesized run of
lowercase letters becomes optional. -/
def optionalTextAux : Nat → List Char → List Char
  | _, [] => []
  | 0, l => l
  | fuel + 1, c :: rest =>
      if c = '(' then
        let w := rest.takeWhile isLowerAlpha
        let after := rest.drop w.length
        if w ≠ [] ∧ after.head? = some ')' then
          '(' :: w ++ ')' :: '?' :: optionalTextAux fuel (after.drop 1)
        else c :: optionalTextAux fuel rest
      else c :: optionalTextAux fuel rest

def replaceOptionalText (s : String) : String :=
  String.mk (optionalTextAux s.data.length s.data)

/-- The `(?:\/([a-zA-Z]+))+` tail: as many `/letters` segments as
possible, each kept with its slash. -/
def altSegmentsAux : Nat → List Char → (List Char × List Char)
  | 0, l => ([], l)
  | fuel + 1, l =>
      match l with
      | '/' :: rest =>
          let w := rest.takeWhile isAlphaJs
          if w ≠ [] then
            let (more, post) := altSegmentsAux fuel (rest.drop w.length)
            ('/' :: w ++ more, post)
          else ([], l)
      | _ => ([], l)

/-- `step.replace(/([a-zA-Z]+)(?:\/([a-zA-Z]+))+/g, m => '(' + m.replace(/\//g, '|') + ')')`:
a run of letters followed by one or more `/letters` segments becomes
an alternation group with the slashes turned into pipes. -/
def alternativeTextAux : Nat → List Char → List Char
  | _, [] => []
  | 0, l => l
  | fuel + 1, c :: rest =>
      if isAlphaJs c then
        let w := c :: rest.takeWhile isAlphaJs
        let after := rest.drop (w.length - 1)
        let (segs, post) := altSegmentsAux after.length after
        if segs ≠ [] then
          let whole := w ++ segs
          '(' :: (whole.map (fun d => if d = '/' then '|' else d)) ++
            ')' :: alternativeTextAux fuel post
        else w ++ alternativeTextAux fuel after
      else c :: alternativeTextAux fuel rest

def replaceAlternativeText (s : String) : String :=
  String.mk (alternativeTextAux s.data.length s.data)

/-- The part after `{` of the generic-placeholder pattern
`{(?![\d,])(.*?)}`: the lookahead forbids a digit or comma right after
the brace, then the content runs lazily to the first `}`. -/
def tryBraceContent (l : List Char) : Option (List Char) :=
  match l with
  | [] => none
  | c :: _ =>
      if c.isDigit ∨ c = ',' then none
      else scanToCloseBrace l

/-- `step.replace(/([^\\]|^){(?![\d,])(.*?)}/g, '$1.*')`: a brace
placeholder not preceded by a backslash (or standing at the start) and
not opening like a quantifier becomes `.*`, keeping the preceding
character. -/
def genericBracesAux : Nat → Bool → List Char → List Char
  | _, _, [] => []
  | 0, _, l => l
  | fuel + 1, atStart, c :: rest =>
      if atStart ∧ c = '{' then
        match tryBraceContent rest with
        | some post => '.' :: '*' :: genericBracesAux fuel false post
        | none => c :: genericBracesAux fuel false rest
      else
        match rest with
        | '{' :: rest2 =>
            if c ≠ '\\' then
              match tryBraceContent rest2 with
              | some post => c :: '.' :: '*' :: genericBracesAux fuel false post
              | none => c :: genericBracesAux fuel false rest
            else c :: genericBracesAux fuel false rest
        | _ => c :: genericBracesAux fuel false rest

def replaceGenericBraces (s : String) : String :=
  String.mk (genericBracesAux s.data.length true s.data)

/-- Modelled from the spec: `escapeRegExp` lives in the missing `util`
module.  Section 4.2 step 6 of the spec escapes the remaining
metacharacters of the literal text, while its section 8 properties
(full-pattern correctness of `{int}`, placeholder round-trips,
optional and alternative text) require every sub-pattern inserted by
the earlier steps — `-?\d+`, `(a|b)`, `(s)?` and the rest, whose
characters include `( ) | ? * + [ ] ^ \ .` — to stay live regex
syntax.  The only metacharacter both escapable and absent from every
inserted sub-pattern is the delimiter `/`, so the model escapes
exactly it. -/
def escapeRegExp (s : String) : String :=
  String.mk (s.data.foldr
    (fun c acc => if c = '/' then '\\' :: '/' :: acc else c :: acc) [])

/-- `getRegTextForStep(step)`: the expression-mode compilation — the
`specialParameters` table, optional text, alternative text, the
generic brace placeholder, then the escape.  No anchors are added. -/
def getRegTextForStep (step : String) : String :=
  let step := applySpecialParameters step
  let step := replaceOptionalText step
  let step := replaceAlternativeText step
  let step := replaceGenericBraces step
  escapeRegExp step

/-- Modelled from the spec: `escaprRegExpForPureText` of the missing
`util` module escapes every regex metacharacter so the surrounding
text is literal. -/
def escaprRegExpForPureText (s : String) : String :=
  String.mk (s.data.foldr
    (fun c acc =>
      if c = '.' ∨ c = '*' ∨ c = '+' ∨ c = '?' ∨ c = '^' ∨ c = '$' ∨
          c = '{' ∨ c = '}' ∨ c = '(' ∨ c = ')' ∨ c = '|' ∨ c = '[' ∨
          c = ']' ∨ c = '\\' ∨ c = '/' then
        '\\' :: c :: acc
      else c :: acc) [])

/-- `getRegTextForPureStep(step)`: the pure-text compilation — the
`specialParameters` substitutions, a full escape, then each inserted
sub-pattern unescaped again (iterating the table's replacement texts
in order), and the `^...$` anchors. -/
def getRegTextForPureStep (step : String) : String :=
  let step := applySpecialParameters step
  let step := escaprRegExpForPureText step
  let step := replaceAllJs step (escaprRegExpForPureText ".*") ".*"
  let step := replaceAllJs step
    (escaprRegExpForPureText "-?\\d*\\.?\\d+") "-?\\d*\\.?\\d+"
  let step := replaceAllJs step (escaprRegExpForPureText "-?\\d+") "-?\\d+"
  let step := replaceAllJs step
    (escaprRegExpForPureText "\"[^\"]+\"") "\"[^\"]+\""
  let step := replaceAllJs step (escaprRegExpForPureText "[^\\s]+") "[^\\s]+"
  let step := replaceAllJs step
    (escaprRegExpForPureText "(\"|')[^\\1]*\\1") "(\"|')[^\\1]*\\1"
  "^" ++ step ++ "$"

example : getRegTextForStep "I have {int}" = "I have -?\\d+" := by decide

example : getRegTextForStep "I run(s)" = "I run(s)?" := by decide

example : getRegTextForStep "I go up/down" = "I go (up|down)" := by decide

example : getRegTextForStep "I see {myThing} here" = "I see .* here" := by
  decide

/-! ## Partial patterns, display text, invariants -/

/-- The character loop of `getPartialRegParts`: split on spaces, but
keep everything between a `(` and its balancing `)` (tracked by the
opening and closing counters) inside one part; the final part is
pushed when the input ends. -/
def partialPartsAux : List Char → List Char → Bool → Nat → Nat → List String
  | [], cur, _, _, _ => [String.mk cur.reverse]
  | c :: rest, cur, true, opening, closing =>
      let closing' := if c = ')' then closing + 1 else closing
      let bracesMode' := ¬(c = ')' ∧ opening = closing')
      let opening' := if c = '(' then opening + 1 else opening
      partialPartsAux rest (c :: cur) bracesMode' opening' closing'
  | c :: rest, cur, false, opening, closing =>
      if c = ' ' then
        String.mk cur.reverse :: partialPartsAux rest [] false opening closing
      else if c = '(' then partialPartsAux rest ('(' :: cur) true 1 0
      else partialPartsAux rest (c :: cur) false opening closing

/-- `getPartialRegParts(text)`: compile the template (by the mode the
settings select) and split the compiled text into parts. -/
def getPartialRegParts (settings : Settings) (text : String) : List String :=
  let text :=
    if settings.pureTextSteps then getRegTextForPureStep text
    else getRegTextForStep text
  partialPartsAux text.data [] false 0 0

/-- `getPartialRegText(regText)`: each part `t` becomes `(t|$)`, the
parts are joined by `( |$)`, and a `^` is put in front unless one
already leads. -/
def getPartialRegText (settings : Settings) (regText : String) : String :=
  let joined := String.intercalate "( |$)"
    ((getPartialRegParts settings regText).map (fun el => "(" ++ el ++ "|$)"))
  if joined.data.head? = some '^' then joined else "^" ++ joined

example :
    getPartialRegText ⟨false, false, false⟩ "I have {int}" =
      "^(I|$)( |$)(have|$)( |$)(-?\\d+|$)" := by decide

/-- `getTextForStep(step)`: drop every backslash, drop one leading `^`
and one trailing `$`, then restore the known sub-pattern shapes (with
their backslashes already gone) to the placeholder names, in the
source's order. -/
def getTextForStep (step : String) : String :=
  let step := String.mk (step.data.filter (fun c => c ≠ '\\'))
  let step := match step.data with
    | '^' :: rest => String.mk rest
    | l => String.mk l
  let step :=
    if step.data.getLast? = some '$' then String.mk step.data.dropLast else step
  let step := replaceAllJs step "(\"|')[^1]*1" "{string}"
  let step := replaceAllJs step "\"[^\"]+\"" "{stringInDoubleQuotes}"
  let step := replaceAllJs step "[^s]+" "{word}"
  let step := replaceAllJs step "-?d+" "{int}"
  let step := replaceAllJs step "-?d*.?d+" "{float}"
  step

/-- `step.replace(/\{.*/, '')`: from the first `{` on, remove the rest
of its line. -/
def descRemoveBody : List Char → List Char
  | [] => []
  | '{' :: rest => rest.dropWhile (fun c => c ≠ '\n')
  | c :: rest => c :: descRemoveBody rest

/-- `getDescForStep(step)`: strip the function-body part and the
surrounding whitespace. -/
def getDescForStep (step : String) : String :=
  ltrimJs (rtrimJs (String.mk (descRemoveBody step.data)))

/-- The leftmost match of `/(\([^)()]+\|[^()]+\))/`: a parenthesized
paren-free run holding a pipe with at least one character on each
side. -/
def findAltGroup : List Char → Option String
  | [] => none
  | c :: rest =>
      if c = '(' then
        let inner := rest.takeWhile (fun d => d ≠ '(' ∧ d ≠ ')')
        let after := rest.drop inner.length
        if after.head? = some ')' ∧
            (List.range inner.length).any (fun i =>
              0 < i ∧ i + 1 < inner.length ∧ inner.getD i ' ' = '|') then
          some (String.mk ('(' :: inner ++ [')']))
        else findAltGroup rest
      else findAltGroup rest

/-- `getStepTextInvariants(step)`: while an alternation group is
found, replace its first occurrence by each branch (after dropping a
leading `(?:`, the outer parens, and splitting on pipes) and recurse.
Each substitution shortens the string, so the input length bounds the
recursion depth and serves as fuel. -/
def getStepTextInvariantsAux : Nat → String → List String
  | 0, step => [step]
  | fuel + 1, step =>
      match findAltGroup step.data with
      | some matchRes =>
          let variantsSrc := replaceFirstJs matchRes "(?:" ""
          let v1 := match variantsSrc.data with
            | '(' :: rest => rest
            | l => l
          let v2 := if v1.getLast? = some ')' then v1.dropLast else v1
          let variants := (splitCharAux '|' v2 []).map String.mk
          variants.foldl (fun varRes variant =>
            varRes ++
              getStepTextInvariantsAux fuel (replaceFirstJs step matchRes variant))
            []
      | none => [step]

def getStepTextInvariants (step : String) : List String :=
  getStepTextInvariantsAux (step.length + 1) step

example :
    getStepTextInvariants "I go (one|two|three)" =
      ["I go one", "I go two", "I go three"] := by decide

example :
    getStepTextInvariants "I go (a|ab)" = ["I go a", "I go ab"] := by decide

/-! ## Building and populating the index -/

/-- Modelled from the spec: `getMD5Id` of the missing `util` module is
a content hash of the display text — determined by the text and
collision-free on the texts in play; the identity function keeps both
properties and is the executable stand-in. -/
def getMD5Id (s : String) : String := s

/-- Modelled from the spec: `getDocumentation` runs the external
`doctrine` comment parser over the raw block comment and falls back to
the raw comment text itself; the fallback is the embedded behaviour. -/
def getDocumentation (stepRawComment : String) : String := stepRawComment

/-- `elemenstCountHash[id] || 0`. -/
def getElementCount (h : StepsHandler) (id : String) : Nat :=
  match h.elemenstCountHash.find? (fun p => p.1 = id) with
  | some p => p.2
  | none => 0

/-- `comments[def.range.start.line]` of the JSDoc comment map. -/
def commentsLookup (comments : List (Nat × String)) (n : Nat) : Option String :=
  (comments.find? (fun p => p.1 = n)).map (·.2)

/-- `getSteps(fullStepLine, stepPart, def, gherkin, comments)`,
parameterized by `compile`, the external JavaScript `RegExp`
constructor viewed as a partial compiler to matchers: expand the
invariants when the setting is on, keep only the variants whose full
pattern text compiles, and build each kept variant's `Step`, falling
back to the full pattern when the partial pattern text does not
compile. -/
def getStepsWith (compile : String → Option (String → Bool))
    (h : StepsHandler) (fullStepLine stepPart : String) (defn : Loc)
    (gherkin : GherkinType) (comments : List (Nat × String)) : List Step :=
  let stepsVariants :=
    if h.settings.stepsInvariants then getStepTextInvariants stepPart
    else [stepPart]
  let desc := getDescForStep fullStepLine
  let comment := commentsLookup comments defn.range.start.line
  let documentation := match comment with
    | some c => if c ≠ "" then getDocumentation c else fullStepLine
    | none => fullStepLine
  (stepsVariants.filter (fun step =>
      let regText :=
        if h.settings.pureTextSteps then getRegTextForPureStep step
        else getRegTextForStep step
      (compile regText).isSome)).map (fun step =>
    let regText :=
      if h.settings.pureTextSteps then getRegTextForPureStep step
      else getRegTextForStep step
    let reg := (compile regText).getD (fun _ => false)
    let partialReg := match compile (getPartialRegText h.settings step) with
      | some r => r
      | none => reg
    let text := if h.settings.pureTextSteps then step else getTextForStep step
    let id := "step" ++ getMD5Id text
    let count := getElementCount h id
    ⟨id, reg, partialReg, text, desc, defn, count, gherkin, documentation⟩)

/-- The step-collection part of `populate(root, stepsPathes)`: the
globbing and file reading are external, so the extracted step lists,
one per file, are the input.  A fresh hash of seen ids is threaded
through both reduces — across files as well as within one — and a step
is pushed only when its id is not in the hash yet. -/
def populateSteps (fileSteps : List (List Step)) : List Step :=
  (fileSteps.foldl (fun acc file =>
      file.foldl (fun acc step =>
          if acc.2.contains step.id then acc
          else (acc.1 ++ [step], acc.2 ++ [step.id]))
        acc)
    (([] : List Step), ([] : List String))).1

/-! ## An executable interpreter for the JavaScript regular expressions
the pipeline produces

The `RegExp` constructor and `test` method are JavaScript builtins,
external to this repository; where a claim needs a concrete pattern
evaluated they are modelled by this small parser and backtracking
matcher for the constructs the compiled patterns use: literals,
capturing and non-capturing groups, alternation, the `* + ?`
quantifiers with their lazy variants, character classes built from
single characters, escapes and the `\d \s \w` families, the `.`
wildcard, the `^` and `$` assertions and the `\1..\9` backreferences
(a decimal escape inside a character class is the legacy octal escape,
a control character, exactly as JavaScript reads it outside unicode
mode).  Matching is pure backtracking: `test` succeeds when any start
position admits any match, which is the acceptance semantics of the
builtin. -/

inductive ClassItem where
  | chr (c : Char)
  | digit
  | space
  | word
deriving DecidableEq, Repr

inductive JsRe where
  | eps
  | lit (c : Char)
  | anyChar
  | cls (neg : Bool) (items : List ClassItem)
  | seq (a b : JsRe)
  | alt (a b : JsRe)
  | star (a : JsRe)
  | group (n : Nat) (a : JsRe)
  | backref (n : Nat)
  | bol
  | eol
deriving DecidableEq, Repr

/-- `[A-Za-z0-9_]`, JavaScript's `\w` in the ASCII range. -/
def isWordChar (c : Char) : Bool := c.isAlphanum ∨ c = '_'

def classItemMatch (d : Char) : ClassItem → Bool
  | .chr c => d = c
  | .digit => d.isDigit
  | .space => isJsSpace d
  | .word => isWordChar d

/-- Character-class body up to the closing `]`. -/
def parseClassItems : Nat → List Char → Option (List ClassItem × List Char)
  | 0, _ => none
  | _, [] => none
  | fuel + 1, c :: rest =>
      if c = ']' then some ([], rest)
      else if c = '\\' then
        match rest with
        | [] => none
        | d :: rest2 =>
            let item : ClassItem :=
              if d = 'd' then .digit
              else if d = 's' then .space
              else if d = 'w' then .word
              else if d = 'n' then .chr '\n'
              else if d = 'r' then .chr '\r'
              else if d = 't' then .chr '\t'
              else if d = 'v' then .chr '\x0b'
              else if d = 'f' then .chr '\x0c'
              else if d.isDigit then .chr (Char.ofNat (d.toNat - '0'.toNat))
              else .chr d
            match parseClassItems fuel rest2 with
            | some (items, rem) => some (item :: items, rem)
            | none => none
      else
        match parseClassItems fuel rest with
        | some (items, rem) => some (.chr c :: items, rem)
        | none => none

mutual

/-- An alternation: sequences separated by `|`. -/
def parseAltRe : Nat → List Char → Nat → Option (JsRe × List Char × Nat)
  | 0, _, _ => none
  | fuel + 1, cs, gc =>
      match parseSeqRe fuel cs gc with
      | none => none
      | some (r, rest, gc1) =>
          match rest with
          | '|' :: rest2 =>
              match parseAltRe fuel rest2 gc1 with
              | some (r2, rest3, gc2) => some (.alt r r2, rest3, gc2)
              | none => none
          | _ => some (r, rest, gc1)

/-- A sequence of quantified atoms, stopping at `|`, `)` or the end;
a dangling quantifier is the syntax error it is for the builtin. -/
def parseSeqRe : Nat → List Char → Nat → Option (JsRe × List Char × Nat)
  | 0, _, _ => none
  | fuel + 1, cs, gc =>
      match cs with
      | [] => some (.eps, [], gc)
      | ')' :: _ => some (.eps, cs, gc)
      | '|' :: _ => some (.eps, cs, gc)
      | _ =>
          match parseAtomRe fuel cs gc with
          | none => none
          | some (a, rest, gc1) =>
              let quant : Option (JsRe × List Char) :=
                match rest with
                | '*' :: r2 => some (.star a, r2)
                | '+' :: r2 => some (.seq a (.star a), r2)
                | '?' :: r2 => some (.alt a .eps, r2)
                | _ => none
              match quant with
              | some (qa, r2) =>
                  let r3 := match r2 with
                    | '?' :: rr => rr
                    | _ => r2
                  match r3 with
                  | '*' :: _ => none
                  | '+' :: _ => none
                  | '?' :: _ => none
                  | _ =>
                      match parseSeqRe fuel r3 gc1 with
                      | some (b, rest2, gc2) => some (.seq qa b, rest2, gc2)
                      | none => none
              | none =>
                  match parseSeqRe fuel rest gc1 with
                  | some (b, rest2, gc2) => some (.seq a b, rest2, gc2)
                  | none => none

/-- One atom: group, class, escape, wildcard, assertion or literal. -/
def parseAtomRe : Nat → List Char → Nat → Option (JsRe × List Char × Nat)
  | 0, _, _ => none
  | fuel + 1, cs, gc =>
      match cs with
      | [] => none
      | '(' :: '?' :: ':' :: rest2 =>
          match parseAltRe fuel rest2 gc with
          | some (r, ')' :: rest3, gc1) => some (r, rest3, gc1)
          | _ => none
      | '(' :: '?' :: _ => none
      | '(' :: rest =>
          match parseAltRe fuel rest (gc + 1) with
          | some (r, ')' :: rest3, gc1) => some (.group (gc + 1) r, rest3, gc1)
          | _ => none
      | '[' :: '^' :: rest2 =>
          match parseClassItems rest2.length rest2 with
          | some (items, rem) => some (.cls true items, rem, gc)
          | none => none
      | '[' :: rest =>
          match parseClassItems rest.length rest with
          | some (items, rem) => some (.cls false items, rem, gc)
          | none => none
      | '\\' :: d :: rest2 =>
          if d.isDigit ∧ d ≠ '0' then
            some (.backref (d.toNat - '0'.toNat), rest2, gc)
          else if d = 'd' then some (.cls false [.digit], rest2, gc)
          else if d = 'D' then some (.cls true [.digit], rest2, gc)
          else if d = 's' then some (.cls false [.space], rest2, gc)
          else if d = 'S' then some (.cls true [.space], rest2, gc)
          else if d = 'w' then some (.cls false [.word], rest2, gc)
          else if d = 'W' then some (.cls true [.word], rest2, gc)
          else if d = 'n' then some (.lit '\n', rest2, gc)
          else if d = 'r' then some (.lit '\r', rest2, gc)
          else if d = 't' then some (.lit '\t', rest2, gc)
          else if d = 'v' then some (.lit '\x0b', rest2, gc)
          else if d = 'f' then some (.lit '\x0c', rest2, gc)
          else if d = 'b' ∨ d = 'B' then none
          else some (.lit d, rest2, gc)
      | '\\' :: [] => none
      | '^' :: rest => some (.bol, rest, gc)
      | '$' :: rest => some (.eol, rest, gc)
      | '.' :: rest => some (.anyChar, rest, gc)
      | '*' :: _ => none
      | '+' :: _ => none
      | '?' :: _ => none
      | c :: rest => some (.lit c, rest, gc)

end

/-- Parse a whole pattern; unbalanced or unsupported syntax is a
construction error, as for the builtin constructor. -/
def jsregexParse (pat : String) : Option JsRe :=
  match parseAltRe (3 * pat.length + 8) pat.data 0 with
  | some (r, [], _) => some r
  | _ => none

def reSize : JsRe → Nat
  | .seq a b => reSize a + reSize b + 1
  | .alt a b => reSize a + reSize b + 1
  | .star a => reSize a + 1
  | .group _ a => reSize a + 1
  | _ => 1

/-- The backtracking matcher in continuation style.  Captures are the
association list group-number to slice; a star iteration must make
progress, as the builtin's empty-iteration rule demands; a reference
to a group that has not captured matches the empty string. -/
def jsMatch (input : List Char) :
    Nat → JsRe → Nat → List (Nat × Nat × Nat) →
    (Nat → List (Nat × Nat × Nat) → Bool) → Bool
  | 0, _, _, _, _ => false
  | fuel + 1, re, pos, caps, k =>
      match re with
      | .eps => k pos caps
      | .lit c =>
          match input.get? pos with
          | some d => if d = c then k (pos + 1) caps else false
          | none => false
      | .anyChar =>
          match input.get? pos with
          | some d => if d = '\n' ∨ d = '\r' then false else k (pos + 1) caps
          | none => false
      | .cls neg items =>
          match input.get? pos with
          | some d =>
              if (items.any (classItemMatch d)) ≠ neg then k (pos + 1) caps
              else false
          | none => false
      | .seq a b => jsMatch input fuel a pos caps
          (fun p c => jsMatch input fuel b p c k)
      | .alt a b =>
          jsMatch input fuel a pos caps k || jsMatch input fuel b pos caps k
      | .star a =>
          (jsMatch input fuel a pos caps (fun p c =>
            if pos < p then jsMatch input fuel (.star a) p c k else false)) ||
          k pos caps
      | .group n a => jsMatch input fuel a pos caps
          (fun p c => k p ((n, pos, p) :: c.filter (fun q => q.1 ≠ n)))
      | .backref n =>
          match caps.find? (fun q => q.1 = n) with
          | none => k pos caps
          | some q =>
              let sub := (input.drop q.2.1).take (q.2.2 - q.2.1)
              if sub.isPrefixOf (input.drop pos) then k (pos + sub.length) caps
              else false
      | .bol => if pos = 0 then k pos caps else false
      | .eol => if pos = input.length then k pos caps else false

def matchFuel (re : JsRe) (input : List Char) : Nat :=
  (reSize re + 8) * (input.length + 8)

/-- `re.test(s)`: a match may begin at any position. -/
def jsreTest (re : JsRe) (s : String) : Bool :=
  (List.range (s.data.length + 1)).any (fun start =>
    jsMatch s.data (matchFuel re s.data) re start [] (fun _ _ => true))

/-- Whether the pattern matches the whole string, start to end. -/
def jsreTestWhole (re : JsRe) (s : String) : Bool :=
  jsMatch s.data (matchFuel re s.data) re 0 [] (fun p _ => p = s.data.length)

/-- The `RegExp` constructor as a partial compiler to matchers. -/
def jsregexCompile (pat : String) : Option (String → Bool) :=
  (jsregexParse pat).map (fun re s => jsreTest re s)

/-- Pattern-and-string evaluation in one step: false when the pattern
does not compile. -/
def regexTestStr (pat s : String) : Bool :=
  match jsregexParse pat with
  | some re => jsreTest re s
  | none => false

example : regexTestStr (getRegTextForStep "I have {int} cats") "I have 3 cats" =
    true := by decide

example :
    regexTestStr (getRegTextForStep "I have {int} cats") "I have -12 cats" =
      true := by decide

example :
    regexTestStr (getRegTextForStep "I have {int} cats") "I have three cats" =
      false := by decide

example : regexTestStr (getRegTextForStep "I run(s)") "I run" = true := by
  decide

example : regexTestStr (getRegTextForStep "I run(s)") "I runs" = true := by
  decide

example : regexTestStr (getRegTextForStep "I go up/down") "I go up" = true := by
  decide

example : regexTestStr (getRegTextForStep "I go up/down") "I go sideways" =
    false := by decide

/-! ## The claims -/

/-- C2: for each built-in placeholder p in {int}, {float}, {word},
{string}, {stringInDoubleQuotes}, compiling the template "I have "
followed by p to a full-pattern regex source in expression mode with
no custom parameters, and converting that source back to display text
with `getTextForStep`, yields exactly the original template. -/
theorem placeholder_roundtrip_c2 :
    getTextForStep (getRegTextForStep "I have {int}") = "I have {int}" ∧
    getTextForStep (getRegTextForStep "I have {float}") = "I have {float}" ∧
    getTextForStep (getRegTextForStep "I have {word}") = "I have {word}" ∧
    getTextForStep (getRegTextForStep "I have {string}") = "I have {string}" ∧
    getTextForStep (getRegTextForStep "I have {stringInDoubleQuotes}") =
      "I have {stringInDoubleQuotes}" := by
  refine ⟨by decide, by decide, by decide, by decide, by decide⟩

/-- C3, evaluated at the failing input: the template `I say {string}`
compiles to the full pattern `I say ("|')[^\1]*\1`, which matches the
whole line `I say "hi"`; the partial pattern text compiles, yet fails
on that very line (and on every prefix reaching into the quoted part),
because wrapping each token in a `(…|$)` group shifts the group
numbering and the token's `\1` backreference now denotes the first
wrapper group instead of the quote group.  The line's end is a token
boundary, so the claimed prefix tolerance fails even though
`getPartialRegText`'s own comment promises a match for any string
"same or less" than a matching one. -/
theorem partial_backref_c3 :
    (jsregexParse (getRegTextForStep "I say {string}")).map
        (fun re => jsreTestWhole re "I say \"hi\"") = some true ∧
    (jsregexParse
        (getPartialRegText ⟨false, false, false⟩ "I say {string}")).isSome =
      true ∧
    regexTestStr (getPartialRegText ⟨false, false, false⟩ "I say {string}")
        "I say \"hi\"" = false := by
  refine ⟨by decide, by decide, by decide⟩

/-- C5, evaluated at the failing input: the template `I go (a|ab)`
with invariants enabled expands to exactly the two steps `I go a` and
`I go ab` — the count part of the claim holds — but the first step's
full pattern also accepts the other branch's concrete text `I go ab`,
because `getRegTextForStep` emits no `^...$` anchors (the anchors
`getTextForStep` strips and `getRegTextForPureStep` adds), so matching
is a substring search and `I go a` occurs inside `I go ab`. -/
theorem invariants_cross_match_c5 :
    (getStepsWith jsregexCompile ⟨[], ⟨false, true, false⟩, []⟩
        "Given('I go (a|ab)', cb)" "I go (a|ab)"
        ⟨"file:///steps.js", ⟨⟨0, 0⟩, ⟨0, 0⟩⟩⟩ GherkinType.Given []).length =
      2 ∧
    (getStepsWith jsregexCompile ⟨[], ⟨false, true, false⟩, []⟩
        "Given('I go (a|ab)', cb)" "I go (a|ab)"
        ⟨"file:///steps.js", ⟨⟨0, 0⟩, ⟨0, 0⟩⟩⟩ GherkinType.Given []).map
        (fun s => s.text) = ["I go a", "I go ab"] ∧
    (getStepsWith jsregexCompile ⟨[], ⟨false, true, false⟩, []⟩
        "Given('I go (a|ab)', cb)" "I go (a|ab)"
        ⟨"file:///steps.js", ⟨⟨0, 0⟩, ⟨0, 0⟩⟩⟩ GherkinType.Given []).map
        (fun s => s.reg "I go ab") = [true, true] := by
  refine ⟨by decide, by decide, by decide⟩

/-- C9: the two implementations of the validation entry point are not
equivalent — the JSON-capable duplicate returns null on every input,
its diagnostic branch standing after an unconditional early return,
while the canonical implementation produces the warning diagnostic on
a Gherkin-shaped line with no matching step. -/
theorem validate_duplicates_differ_c9 :
    (∀ (h : StepsHandler) (line : String) (lineNum : Nat) (text : String),
      validateJsonMode h line lineNum text = none) ∧
    validate ⟨[], ⟨false, false, false⟩, []⟩ "Given foo" 0 "Given foo" =
      some ⟨2, ⟨⟨0, 0⟩, ⟨0, 9⟩⟩,
        "Was unable to find step for \"Given foo\"", "cucumberautocomplete"⟩ ∧
    validateJsonMode ⟨[], ⟨false, false, false⟩, []⟩ "Given foo" 0
      "Given foo" = none := by
  refine ⟨?_, by decide, by decide⟩
  intro h line lineNum text
  simp only [validateJsonMode]
  split <;> rfl

/-- The per-line picker of the backward scan: the classification of
the line's Gherkin match when it is Given, When or Then. -/
def strictScanPick (h : StepsHandler) (text : String) (l : String) :
    Option GherkinType :=
  match getGherkinMatch h l text with
  | some m =>
      if getGherkinTypeLower m.g2 = GherkinType.Given ∨
          getGherkinTypeLower m.g2 = GherkinType.When ∨
          getGherkinTypeLower m.g2 = GherkinType.Then then
        some (getGherkinTypeLower m.g2)
      else none
  | none => none

/-- Once the sticky fold of `getStrictGherkinType` leaves `Other` it
never changes again. -/
theorem strictScanFold_frozen (h : StepsHandler) (text : String)
    (t : GherkinType) (ht : t ≠ GherkinType.Other) :
    ∀ L : List String,
      L.foldl (fun res val =>
        if res = GherkinType.Other then
          match getGherkinMatch h val text with
          | some m =>
              let prevGherkinPartType := getGherkinTypeLower m.g2
              if prevGherkinPartType = GherkinType.Given ∨
                  prevGherkinPartType = GherkinType.When ∨
                  prevGherkinPartType = GherkinType.Then then
                prevGherkinPartType
              else res
          | none => res
        else res) t = t := by
  intro L
  induction L with
  | nil => rfl
  | cons a L ih => simpa [List.foldl_cons, if_neg ht] using ih

/-- The sticky fold of `getStrictGherkinType` computes the first
successful pick of the scan, or `Other` when no line yields one. -/
theorem strictScanFold_eq_findSome (h : StepsHandler) (text : String) :
    ∀ L : List String,
      L.foldl (fun res val =>
        if res = GherkinType.Other then
          match getGherkinMatch h val text with
          | some m =>
              let prevGherkinPartType := getGherkinTypeLower m.g2
              if prevGherkinPartType = GherkinType.Given ∨
                  prevGherkinPartType = GherkinType.When ∨
                  prevGherkinPartType = GherkinType.Then then
                prevGherkinPartType
              else res
          | none => res
        else res) GherkinType.Other =
      (L.findSome? (strictScanPick h text)).getD GherkinType.Other := by
  intro L
  induction L with
  | nil => rfl
  | cons a L ih =>
      rw [List.foldl_cons, List.findSome?_cons]
      rcases hp : strictScanPick h text a with _ | t
      · rw [← ih]
        congr 1
        simp only [strictScanPick] at hp
        split at hp
        next m hm =>
          split at hp
          · exact absurd hp (by simp)
          · simp [hm, *]
        next hm => simp [hm]
      · have hfirst :
            (if GherkinType.Other = GherkinType.Other then
              match getGherkinMatch h a text with
              | some m =>
                  let prevGherkinPartType := getGherkinTypeLower m.g2
                  if prevGherkinPartType = GherkinType.Given ∨
                      prevGherkinPartType = GherkinType.When ∨
                      prevGherkinPartType = GherkinType.Then then
                    prevGherkinPartType
                  else GherkinType.Other
              | none => GherkinType.Other
            else GherkinType.Other) = t := by
          simp only [strictScanPick] at hp
          split at hp
          next m hm =>
            split at hp
            next hgwt => simp [hm, hgwt, Option.some.injEq] at hp ⊢; exact hp
            next => exact absurd hp (by simp)
          next hm => exact absurd hp (by simp)
        have ht : t ≠ GherkinType.Other := by
          simp only [strictScanPick] at hp
          split at hp
          next m hm =>
            split at hp
            next hgwt =>
              rcases hp with rfl | h'
              · rcases hgwt with h1 | h1 | h1 <;> simp [h1]
            next => exact absurd hp (by simp)
          next => exact absurd hp (by simp)
        rw [hfirst, strictScanFold_frozen h text t ht L]
        rfl

/-- C6: `getStrictGherkinType` resolves an And/But keyword by scanning
the lines strictly before the given line number in reverse order and
returning the classification of the first line whose Gherkin-line
match classifies as Given, When or Then, `Other` when no such line
exists; any other keyword resolves to its direct classification.  In
particular, on the three-line document "Given a user exists" / "When
they log in" / "And they see a dashboard", line 2 resolves to When. -/
theorem strict_and_but_resolution_c6 :
    (∀ (h : StepsHandler) (kw : String) (n : Nat) (text : String),
      getStrictGherkinType h kw n text =
        (if getGherkinType kw = GherkinType.And ∨
            getGherkinType kw = GherkinType.But then
          ((((splitLinesJs text).take n).reverse).findSome?
              (strictScanPick h text)).getD GherkinType.Other
        else getGherkinTypeLower kw)) ∧
    getStrictGherkinType ⟨[], ⟨false, false, false⟩, []⟩ "And" 2
        "Given a user exists\nWhen they log in\nAnd they see a dashboard" =
      GherkinType.When := by
  constructor
  · intro h kw n text
    by_cases hc : getGherkinType kw = GherkinType.And ∨
        getGherkinType kw = GherkinType.But
    · simp only [getStrictGherkinType, if_pos hc]
      exact strictScanFold_eq_findSome h text _
    · simp only [getStrictGherkinType, if_neg hc]
  · decide

/-- A `find?` is the head of the corresponding `filter`. -/
theorem find?_eq_filter_head {α : Type} (p : α → Bool) :
    ∀ l : List α, l.find? p = (l.filter p).head? := by
  intro l
  induction l with
  | nil => rfl
  | cons a l ih =>
      by_cases hp : p a = true
      · rw [List.find?_cons_of_pos _ hp, List.filter_cons_of_pos hp,
          List.head?_cons]
      · rw [List.find?_cons_of_neg _ hp, List.filter_cons_of_neg hp, ih]

/-- C10: `getStepByText` returns the first element, in the index's
insertion order, whose full pattern accepts the text (and whose type
agrees when one is supplied); consequently `getDefinition` resolves a
Gherkin-shaped line to the earliest-inserted matching step's
definition location, deterministically. -/
theorem first_match_wins_c10 :
    (∀ (h : StepsHandler) (text : String) (g : Option GherkinType),
      getStepByText h text g =
        (h.elements.filter (stepMatchPred text g)).head?) ∧
    (∀ (h : StepsHandler) (line text : String) (m : GherkinMatchR),
      getGherkinMatch h line text = some m →
      getDefinition h line text =
        ((h.elements.filter (stepMatchPred m.g4 none)).head?).map (·.defn)) := by
  constructor
  · intro h text g
    exact find?_eq_filter_head _ _
  · intro h line text m hm
    simp only [getDefinition, hm, getStepByText]
    rw [find?_eq_filter_head]

/-- C10 at a concrete index: two universally-matching steps are
inserted in order, and `getDefinition` yields the first one's
location. -/
theorem first_match_wins_c10_witness :
    getDefinition
        ⟨[⟨"id1", fun _ => true, fun _ => true, "t1", "",
            ⟨"file:///one.js", ⟨⟨1, 0⟩, ⟨1, 0⟩⟩⟩, 0, GherkinType.Given, ""⟩,
          ⟨"id2", fun _ => true, fun _ => true, "t2", "",
            ⟨"file:///two.js", ⟨⟨2, 0⟩, ⟨2, 0⟩⟩⟩, 0, GherkinType.Given, ""⟩],
          ⟨false, false, false⟩, []⟩ "Given x" "Given x" =
      some ⟨"file:///one.js", ⟨⟨1, 0⟩, ⟨1, 0⟩⟩⟩ := by
  exact (first_match_wins_c10.2 _ "Given x" "Given x" ⟨"", "Given", " ", "x"⟩
    rfl).trans rfl

/-- The ids already collected are exactly the ids of the steps already
kept, so the hash test of `populate` is the id-membership test on the
output, and the threaded pair computes the plain dedup fold. -/
theorem populate_pair_fold (l : List Step) :
    ∀ acc : List Step,
      l.foldl (fun acc step =>
          if acc.2.contains step.id then acc
          else (acc.1 ++ [step], acc.2 ++ [step.id]))
        (acc, acc.map (fun s => s.id)) =
      (l.foldl (fun acc s =>
          if acc.any (fun t => t.id = s.id) then acc else acc ++ [s]) acc,
        (l.foldl (fun acc s =>
          if acc.any (fun t => t.id = s.id) then acc else acc ++ [s])
          acc).map (fun s => s.id)) := by
  induction l with
  | nil => intro acc; rfl
  | cons s l ih =>
      intro acc
      have hc : ((acc.map (fun s => s.id)).contains s.id) =
          acc.any (fun t => t.id = s.id) := by
        induction acc with
        | nil => rfl
        | cons a acc iha =>
            simp only [List.map_cons, List.contains_cons, List.any_cons,
              ← iha]
            congr 1
            by_cases h : s.id = a.id
            · simp [h]
            · simp [h, Ne.symm h]
      rw [List.foldl_cons, List.foldl_cons]
      dsimp only
      rw [hc]
      by_cases hmem : acc.any (fun t => t.id = s.id) = true
      · rw [if_pos hmem, if_pos hmem]
        exact ih acc
      · rw [if_neg hmem, if_neg hmem]
        have hmap : (acc.map (fun s => s.id)) ++ [s.id] =
            (acc ++ [s]).map (fun s => s.id) := by
          simp
        rw [hmap]
        exact ih (acc ++ [s])

/-- The dedup fold keeps ids nodup. -/
theorem dedup_fold_nodup (l : List Step) :
    ∀ acc : List Step, ((acc.map (fun s => s.id)).Nodup) →
      (((l.foldl (fun acc s =>
          if acc.any (fun t => t.id = s.id) then acc else acc ++ [s]) acc)).map
        (fun s => s.id)).Nodup := by
  induction l with
  | nil => intro acc h; exact h
  | cons s l ih =>
      intro acc hacc
      rw [List.foldl_cons]
      by_cases hmem : acc.any (fun t => t.id = s.id) = true
      · rw [if_pos hmem]
        exact ih acc hacc
      · rw [if_neg hmem]
        apply ih
        have hnotin : s.id ∉ acc.map (fun t => t.id) := by
          intro hin
          rcases List.mem_map.mp hin with ⟨t, ht, hid⟩
          exact hmem (List.any_eq_true.mpr ⟨t, ht, by simp [hid]⟩)
        rw [List.map_append]
        rw [List.nodup_append]
        refine ⟨hacc, by simp, ?_⟩
        intro x hx hx2
        simp only [List.map_cons, List.map_nil, List.mem_singleton] at hx2
        subst hx2
        exact hnotin hx

/-- C8: after `populate`, every step id occurs at most once in the
element list: the hash is threaded across files as well as within one,
so the output is the first-occurrence dedup of the concatenated
extraction output, and its id list is nodup. -/
theorem populate_unique_ids_c8 :
    ∀ fileSteps : List (List Step),
      (((populateSteps fileSteps).map (fun s => s.id)).Nodup) ∧
      populateSteps fileSteps =
        (fileSteps.flatten).foldl (fun acc s =>
          if acc.any (fun t => t.id = s.id) then acc else acc ++ [s]) [] := by
  intro fileSteps
  have key : populateSteps fileSteps =
      (fileSteps.flatten).foldl (fun acc s =>
        if acc.any (fun t => t.id = s.id) then acc else acc ++ [s]) [] := by
    simp only [populateSteps]
    rw [show (([] : List Step), ([] : List String)) =
        (([] : List Step), ([] : List Step).map (fun s => s.id)) from rfl]
    rw [← List.foldl_flatten]
    rw [populate_pair_fold]
  refine ⟨?_, key⟩
  rw [key]
  exact dedup_fold_nodup _ [] (by simp)

/-- C7: in `getSteps`, a template variant whose full-pattern text the
`RegExp` constructor rejects is excluded by itself — exactly the
variants with a compilable full pattern yield Step records, each
recognizable by its display text — and a variant whose full pattern
compiles but whose partial-pattern text does not is still included,
with the full pattern standing in as its partial pattern.  The
constructor is abstracted as any partial compiler `compile`. -/
theorem getsteps_error_paths_c7 :
    (∀ (compile : String → Option (String → Bool)) (h : StepsHandler)
        (fullStepLine stepPart : String) (defn : Loc) (gherkin : GherkinType)
        (comments : List (Nat × String)),
      (getStepsWith compile h fullStepLine stepPart defn gherkin
          comments).length =
        ((if h.settings.stepsInvariants then getStepTextInvariants stepPart
            else [stepPart]).filter (fun v =>
          (compile (if h.settings.pureTextSteps then getRegTextForPureStep v
              else getRegTextForStep v)).isSome)).length) ∧
    (∀ (compile : String → Option (String → Bool)) (h : StepsHandler)
        (fullStepLine stepPart : String) (defn : Loc) (gherkin : GherkinType)
        (comments : List (Nat × String)) (v : String),
      v ∈ (if h.settings.stepsInvariants then getStepTextInvariants stepPart
          else [stepPart]) →
      (compile (if h.settings.pureTextSteps then getRegTextForPureStep v
          else getRegTextForStep v)).isSome = true →
      ∃ s ∈ getStepsWith compile h fullStepLine stepPart defn gherkin comments,
        s.text = (if h.settings.pureTextSteps then v else getTextForStep v)) ∧
    (∀ (compile : String → Option (String → Bool)) (h : StepsHandler)
        (fullStepLine stepPart : String) (defn : Loc) (gherkin : GherkinType)
        (comments : List (Nat × String)) (v : String) (r : String → Bool),
      v ∈ (if h.settings.stepsInvariants then getStepTextInvariants stepPart
          else [stepPart]) →
      compile (if h.settings.pureTextSteps then getRegTextForPureStep v
          else getRegTextForStep v) = some r →
      compile (getPartialRegText h.settings v) = none →
      ∃ s ∈ getStepsWith compile h fullStepLine stepPart defn gherkin comments,
        s.reg = r ∧ s.partialReg = r) := by
  refine ⟨?_, ?_, ?_⟩
  · intro compile h fullStepLine stepPart defn gherkin comments
    simp only [getStepsWith, List.length_map]
  · intro compile h fullStepLine stepPart defn gherkin comments v hv hcomp
    refine ⟨_, List.mem_map.mpr ⟨v, List.mem_filter.mpr ⟨hv, hcomp⟩, rfl⟩, rfl⟩
  · intro compile h fullStepLine stepPart defn gherkin comments v r hv hcomp
      hpart
    refine ⟨_, List.mem_map.mpr ⟨v, List.mem_filter.mpr ⟨hv, by
      simp [hcomp]⟩, rfl⟩, ?_, ?_⟩
    · simp only [hcomp, Option.getD_some]
    · simp only [hcomp, hpart, Option.getD_some]

/-- C7 at a concrete input: the template `ab ?c` compiles as a full
pattern, its partial-pattern text `^(ab|$)( |$)(?c|$)` does not (a
dangling `(?` group), and the built step carries the full pattern in
both fields. -/
theorem getsteps_error_paths_c7_witness :
    ∃ s ∈ getStepsWith jsregexCompile ⟨[], ⟨false, false, false⟩, []⟩
        "When('ab ?c', cb)" "ab ?c" ⟨"file:///steps.js", ⟨⟨0, 0⟩, ⟨0, 0⟩⟩⟩
        GherkinType.When [],
      s.reg = (fun t => jsreTest
          ((jsregexParse (getRegTextForStep "ab ?c")).getD JsRe.eps) t) ∧
      s.partialReg = (fun t => jsreTest
          ((jsregexParse (getRegTextForStep "ab ?c")).getD JsRe.eps) t) := by
  exact getsteps_error_paths_c7.2.2 jsregexCompile
    ⟨[], ⟨false, false, false⟩, []⟩ "When('ab ?c', cb)" "ab ?c"
    ⟨"file:///steps.js", ⟨⟨0, 0⟩, ⟨0, 0⟩⟩⟩ GherkinType.When [] "ab ?c"
    (fun t => jsreTest
      ((jsregexParse (getRegTextForStep "ab ?c")).getD JsRe.eps) t)
    (by simp) rfl rfl

/-- C1, the claim as stated, at a concrete input: the line `"Given "`
(with its trailing space) does match the Gherkin line shape, with
empty step content, and the index is empty, so no step matches; the
claim then demands a warning diagnostic, but `validate` first strips
the trailing whitespace, after which the bare keyword no longer has
Gherkin shape, and it returns null. -/
theorem validate_cases_c1_counterexample :
    getGherkinMatch ⟨[], ⟨false, false, false⟩, []⟩ "Given " "" =
      some ⟨"", "Given", " ", ""⟩ ∧
    validate ⟨[], ⟨false, false, false⟩, []⟩ "Given " 0 "" = none := by
  refine ⟨by decide, by decide⟩

/-- C1 as amended: shape, step content and the reported range refer to
the line with its trailing whitespace removed.  For every line, line
number and document: when the trimmed line has Gherkin shape and some
indexed step matches its content (the step's type being required to
equal the strict resolution exactly when strict validation is on),
`validate` returns null; when the trimmed line has Gherkin shape and
no indexed step matches, it returns the warning diagnostic with source
"cucumberautocomplete" spanning from the keyword's start character to
the trimmed line's end; when the trimmed line lacks Gherkin shape it
returns null. -/
theorem validate_cases_c1 :
    ∀ (h : StepsHandler) (line : String) (lineNum : Nat) (text : String),
      (getGherkinMatch h (rtrimJs line) text = none →
        validate h line lineNum text = none) ∧
      (∀ m : GherkinMatchR, getGherkinMatch h (rtrimJs line) text = some m →
        ((∃ s ∈ h.elements,
            stepMatchPred m.g4
              (if h.settings.strictGherkinValidation then
                some (getStrictGherkinType h m.g2 lineNum text)
              else none) s = true) →
          validate h line lineNum text = none) ∧
        ((∀ s ∈ h.elements,
            ¬ stepMatchPred m.g4
              (if h.settings.strictGherkinValidation then
                some (getStrictGherkinType h m.g2 lineNum text)
              else none) s = true) →
          validate h line lineNum text =
            some ⟨2,
              ⟨⟨lineNum, m.g1.length⟩, ⟨lineNum, (rtrimJs line).length⟩⟩,
              "Was unable to find step for \"" ++ ltrimJs (rtrimJs line) ++
                "\"",
              "cucumberautocomplete"⟩)) := by
  intro h line lineNum text
  refine ⟨?_, ?_⟩
  · intro hm
    simp only [validate, hm]
  · intro m hm
    constructor
    · intro hex
      have hsome : (getStepByText h m.g4
          (if h.settings.strictGherkinValidation then
            some (getStrictGherkinType h m.g2 lineNum text)
          else none)).isSome = true :=
        List.find?_isSome.mpr hex
      rcases Option.isSome_iff_exists.mp hsome with ⟨st, hst⟩
      simp only [validate, hm, hst]
    · intro hnone
      have hfind : getStepByText h m.g4
          (if h.settings.strictGherkinValidation then
            some (getStrictGherkinType h m.g2 lineNum text)
          else none) = none :=
        List.find?_eq_none.mpr hnone
      simp only [validate, hm, hfind]

/-- C1 as amended, applied at a concrete input: an empty index and the
Gherkin-shaped line "Given foo" produce the warning diagnostic. -/
theorem validate_cases_c1_witness :
    validate ⟨[], ⟨false, false, false⟩, []⟩ "Given foo" 0 "Given foo" =
      some ⟨2, ⟨⟨0, 0⟩, ⟨0, 9⟩⟩,
        "Was unable to find step for \"Given foo\"",
        "cucumberautocomplete"⟩ := by
  exact ((validate_cases_c1 ⟨[], ⟨false, false, false⟩, []⟩ "Given foo" 0
      "Given foo").2 ⟨"", "Given", " ", "foo"⟩ rfl).2
    (by intro s hs; simp at hs)

/-- C4, the claim as stated, at a concrete input: in the document
whose only `Examples:` table stands after the step line, no table
precedes the line, so the claimed nearest-preceding-table substitution
leaves the placeholder untouched; the code substitutes from the
following table all the same and yields the content "Bob logs in". -/
theorem outline_substitution_c4_counterexample :
    getGherkinMatch ⟨[], ⟨false, false, false⟩, []⟩ "Given <name> logs in"
        "Given <name> logs in\nExamples:\n| name |\n| Bob |" =
      some ⟨"", "Given", " ", "Bob logs in"⟩ ∧
    getGherkinMatch ⟨[], ⟨false, false, false⟩, []⟩ "Given <name> logs in"
        "Given <name> logs in\nExamples:\n| name |\n| Bob |" ≠
      some ⟨"", "Given", " ", "<name> logs in"⟩ := by
  refine ⟨by decide, by decide⟩

/-- The amended C4 reading of one table's contribution: an `Examples:`
header line whose second-next line exists and is non-empty binds the
names of the next line to the values of the one after, pipe-split with
the outer cells dropped, skipping empty value cells. -/
def tableChunkRef (header : String) (row1 row2 : Option String) :
    List (String × String) :=
  match row2 with
  | some third =>
      if isExamplesHeader header ∧ third ≠ "" then
        (dropFirstLast (splitPipesJs (row1.getD ""))).enum.foldl (fun res q =>
          match (dropFirstLast (splitPipesJs third)).get? q.1 with
          | some v => if v ≠ "" then res ++ [(q.2, v)] else res
          | none => res) []
      else []
  | none => []

/-- The inner name/value fold of `getOutlineVars` only appends, so it
factors through its empty-start run. -/
theorem outline_inner_fold_append (values : List String) :
    ∀ (names : List (Nat × String)) (res : List (String × String)),
      names.foldl (fun res q =>
        match values.get? q.1 with
        | some v => if v ≠ "" then res ++ [(q.2, v)] else res
        | none => res) res =
      res ++ names.foldl (fun res q =>
        match values.get? q.1 with
        | some v => if v ≠ "" then res ++ [(q.2, v)] else res
        | none => res) [] := by
  intro names
  induction names with
  | nil => intro res; simp
  | cons q names ih =>
      intro res
      simp only [List.foldl_cons]
      have hbody : ∀ r : List (String × String),
          (match values.get? q.1 with
            | some v => if v ≠ "" then r ++ [(q.2, v)] else r
            | none => r) =
          r ++ (match values.get? q.1 with
            | some v => if v ≠ "" then [(q.2, v)] else []
            | none => ([] : List (String × String))) := by
        intro r
        rcases hv : values.get? q.1 with _ | v
        · simp
        · by_cases hne : v = "" <;> simp [hne]
      rw [hbody res, hbody [], List.nil_append]
      conv_lhs => rw [ih]
      conv_rhs => rw [ih]
      rw [List.append_assoc]

/-- The outer fold of `getOutlineVars` appends one table's bindings
per line, so it is the concatenation of the per-line contributions. -/
theorem outline_outer_fold (arr : List String) :
    ∀ (l : List (Nat × String)) (res : List (String × String)),
      l.foldl (fun res p =>
        match arr.get? (p.1 + 2) with
        | some third =>
            if isExamplesHeader p.2 ∧ third ≠ "" then
              (dropFirstLast (splitPipesJs (arr.getD (p.1 + 1) ""))).enum.foldl
                (fun res q =>
                  match (dropFirstLast (splitPipesJs third)).get? q.1 with
                  | some v => if v ≠ "" then res ++ [(q.2, v)] else res
                  | none => res) res
            else res
        | none => res) res =
      res ++ (l.map (fun p =>
        tableChunkRef p.2 (arr.get? (p.1 + 1)) (arr.get? (p.1 + 2)))).flatten := by
  intro l
  induction l with
  | nil => intro res; simp
  | cons p l ih =>
      intro res
      simp only [List.foldl_cons, List.map_cons, List.flatten_cons]
      rw [ih]
      have hbody :
          (match arr.get? (p.1 + 2) with
            | some third =>
                if isExamplesHeader p.2 ∧ third ≠ "" then
                  (dropFirstLast
                      (splitPipesJs (arr.getD (p.1 + 1) ""))).enum.foldl
                    (fun res q =>
                      match (dropFirstLast (splitPipesJs third)).get? q.1 with
                      | some v => if v ≠ "" then res ++ [(q.2, v)] else res
                      | none => res) res
                else res
            | none => res) =
          res ++ tableChunkRef p.2 (arr.get? (p.1 + 1))
            (arr.get? (p.1 + 2)) := by
        simp only [tableChunkRef]
        rcases h2 : arr.get? (p.1 + 2) with _ | third
        · simp
        · by_cases hc : isExamplesHeader p.2 ∧ third ≠ ""
          · simp only [if_pos hc]
            rw [outline_inner_fold_append]
            rfl
          · simp only [if_neg hc, List.append_nil]
      rw [hbody, List.append_assoc]

/-- C4 as amended: the substitution table is document-global — the
concatenation, in document order, of every `Examples:` table's
bindings (so a lookup takes the last table binding a name, wherever
the tables stand relative to the line) — and, on a line with
angle-bracket placeholders, `getGherkinMatch` returns the
quote-wrapped variant's match exactly when that variant has non-empty
step content matching an indexed step, and the bare variant's match
otherwise. -/
theorem outline_substitution_c4 :
    (∀ text : String,
      getOutlineVars text =
        ((splitLinesJs text).enum.map (fun p =>
          tableChunkRef p.2 ((splitLinesJs text).get? (p.1 + 1))
            ((splitLinesJs text).get? (p.1 + 2)))).flatten) ∧
    (∀ (h : StepsHandler) (line document : String),
      outlineMatchesJs line ≠ [] →
      getGherkinMatch h line document =
        (match gherkinRegexMatch
            (quotesOutlineLine (getOutlineVars document)
              ((outlineMatchesJs line).map removeAngles) line) with
        | some qm =>
            if qm.g4 ≠ "" ∧ (getStepByText h qm.g4 none).isSome then some qm
            else gherkinRegexMatch
              (pureOutlineLine (getOutlineVars document)
                ((outlineMatchesJs line).map removeAngles) line)
        | none =>
            gherkinRegexMatch
              (pureOutlineLine (getOutlineVars document)
                ((outlineMatchesJs line).map removeAngles) line))) := by
  constructor
  · intro text
    simp only [getOutlineVars]
    rw [outline_outer_fold (splitLinesJs text) ((splitLinesJs text).enum) []]
    simp
  · intro h line document houtline
    unfold getGherkinMatch
    rw [if_pos houtline]
    rcases hq : gherkinRegexMatch
        (quotesOutlineLine (getOutlineVars document)
          ((outlineMatchesJs line).map removeAngles) line) with _ | qm
    · simp only [hq]
    · simp only [hq]

/-- C4 as amended, applied at a concrete input: the placeholder line
takes its binding from the table standing after it, and with an empty
index the bare substitution variant's match is returned. -/
theorem outline_substitution_c4_witness :
    getGherkinMatch ⟨[], ⟨false, false, false⟩, []⟩ "Given <name> logs in"
        "Given <name> logs in\nExamples:\n| name |\n| Bob |" =
      some ⟨"", "Given", " ", "Bob logs in"⟩ := by
  exact (outline_substitution_c4.2 ⟨[], ⟨false, false, false⟩, []⟩
      "Given <name> logs in"
      "Given <name> logs in\nExamples:\n| name |\n| Bob |"
      (by decide)).trans (by decide)

end VSCuke
